import Mathlib

/-!
Verification development for the ASKII workspace-agent core
(`src/extension.ts`): the action parser `parseWorkspaceActions`, the
string escaping helpers `escapeJsonString` / `unescapeJsonString`, the
per-round action executor of `askiiDoCommand`, and the multi-round agent
loop.  JavaScript strings are modelled as `List Char`, the file system as
an association list from normalized absolute paths to file contents, and
exceptions as `Option` results.
-/

namespace Askii

/-- Named characters, so that no character literal in this file needs an
escape that is hard to read. -/
def bsl : Char := Char.ofNat 92

def quot : Char := Char.ofNat 34

def lf : Char := Char.ofNat 10

def cr : Char := Char.ofNat 13

def tabc : Char := Char.ofNat 9

def lbrack : Char := Char.ofNat 91

def rbrack : Char := Char.ofNat 93

def lbrace : Char := Char.ofNat 123

def rbrace : Char := Char.ofNat 125

def dollar : Char := Char.ofNat 36

def amp : Char := Char.ofNat 38

def btick : Char := Char.ofNat 96

def apos : Char := Char.ofNat 39

/-- The JSON value model: what `JSON.parse` can return.  Numbers keep
their raw lexeme; the only fact about a number the modelled code ever
uses is its JavaScript truthiness. -/
inductive Json where
  | null : Json
  | bool (b : Bool) : Json
  | num (raw : String) : Json
  | str (s : String) : Json
  | arr (elems : List Json) : Json
  | obj (fields : List (String × Json)) : Json

/-- JSON whitespace accepted by `JSON.parse`: space, tab, newline,
carriage return. -/
def isJsonWs (c : Char) : Bool :=
  c == ' ' || c == tabc || c == lf || c == cr

def skipWs (s : List Char) : List Char :=
  s.dropWhile isJsonWs

/-- If `pat` is an initial segment of `s`, return the remainder. -/
def stripPre : List Char → List Char → Option (List Char)
  | [], s => some s
  | _ :: _, [] => none
  | p :: ps, c :: cs => if p = c then stripPre ps cs else none

/-- A hexadecimal digit value, for `\uXXXX` escapes. -/
def hexVal (c : Char) : Option Nat :=
  if c.isDigit then some (c.toNat - 48)
  else if 97 ≤ c.toNat && c.toNat ≤ 102 then some (c.toNat - 87)
  else if 65 ≤ c.toNat && c.toNat ≤ 70 then some (c.toNat - 55)
  else none

/-- Body of a JSON string literal, after the opening quote: returns the
decoded characters and the input after the closing quote.  Raw control
characters are rejected, escape sequences are decoded.  (Surrogate-pair
recombination of consecutive `\u` escapes is not modelled; no modelled
input uses them.) -/
def parseStrBody : List Char → Option (List Char × List Char)
  | [] => none
  | c :: rest =>
    if c = quot then some ([], rest)
    else if c = bsl then
      match rest with
      | [] => none
      | e :: rest2 =>
        if e = quot then
          (parseStrBody rest2).map (fun p => (quot :: p.1, p.2))
        else if e = bsl then
          (parseStrBody rest2).map (fun p => (bsl :: p.1, p.2))
        else if e = '/' then
          (parseStrBody rest2).map (fun p => ('/' :: p.1, p.2))
        else if e = 'b' then
          (parseStrBody rest2).map (fun p => (Char.ofNat 8 :: p.1, p.2))
        else if e = 'f' then
          (parseStrBody rest2).map (fun p => (Char.ofNat 12 :: p.1, p.2))
        else if e = 'n' then
          (parseStrBody rest2).map (fun p => (lf :: p.1, p.2))
        else if e = 'r' then
          (parseStrBody rest2).map (fun p => (cr :: p.1, p.2))
        else if e = 't' then
          (parseStrBody rest2).map (fun p => (tabc :: p.1, p.2))
        else if e = 'u' then
          match rest2 with
          | h1 :: h2 :: h3 :: h4 :: rest6 =>
            match hexVal h1, hexVal h2, hexVal h3, hexVal h4 with
            | some a, some b, some c, some d =>
              (parseStrBody rest6).map
                (fun p => (Char.ofNat (((a * 16 + b) * 16 + c) * 16 + d) :: p.1, p.2))
            | _, _, _, _ => none
          | _ => none
        else none
    else if c.toNat < 32 then none
    else (parseStrBody rest).map (fun p => (c :: p.1, p.2))

/-- A JSON number lexeme per the JSON grammar: optional minus, integer
part with no leading zero, optional fraction, optional exponent.
Returns the lexeme and the rest of the input. -/
def parseNumLex (s : List Char) : Option (List Char × List Char) :=
  let core : List Char → Option (List Char × List Char) := fun t =>
    match t with
    | [] => none
    | c :: rest =>
      if c = '0' then some ([c], rest)
      else if c.isDigit then
        some (c :: rest.takeWhile Char.isDigit, rest.dropWhile Char.isDigit)
      else none
  let frac : List Char → Option (List Char × List Char) := fun t =>
    match t with
    | '.' :: rest =>
      let ds := rest.takeWhile Char.isDigit
      if ds = [] then none else some ('.' :: ds, rest.dropWhile Char.isDigit)
    | _ => some ([], t)
  let expo : List Char → Option (List Char × List Char) := fun t =>
    match t with
    | c :: rest =>
      if c = 'e' || c = 'E' then
        let signAndRest :=
          match rest with
          | s :: r2 => if s = '+' || s = '-' then ([s], r2) else ([], rest)
          | [] => ([], [])
        let ds := signAndRest.2.takeWhile Char.isDigit
        if ds = [] then none
        else some (c :: signAndRest.1 ++ ds, signAndRest.2.dropWhile Char.isDigit)
      else some ([], t)
    | [] => some ([], t)
  match s with
  | '-' :: rest =>
    match core rest with
    | none => none
    | some (ip, r1) =>
      match frac r1 with
      | none => none
      | some (fp, r2) =>
        match expo r2 with
        | none => none
        | some (ep, r3) => some ('-' :: ip ++ fp ++ ep, r3)
  | _ =>
    match core s with
    | none => none
    | some (ip, r1) =>
      match frac r1 with
      | none => none
      | some (fp, r2) =>
        match expo r2 with
        | none => none
        | some (ep, r3) => some (ip ++ fp ++ ep, r3)

def litTrue : List Char := ['t', 'r', 'u', 'e']

def litFalse : List Char := ['f', 'a', 'l', 's', 'e']

def litNull : List Char := ['n', 'u', 'l', 'l']

mutual

/-- One JSON value, fuel-bounded recursive descent modelling
`JSON.parse`.  Returns the value and the unread rest of the input. -/
def parseVal (fuel : Nat) (s : List Char) : Option (Json × List Char) :=
  match fuel with
  | 0 => none
  | fuel + 1 =>
    match skipWs s with
    | [] => none
    | c :: rest =>
      if c = quot then
        (parseStrBody rest).map (fun p => (Json.str (String.mk p.1), p.2))
      else if c = lbrack then
        parseArrAfterOpen fuel rest
      else if c = lbrace then
        parseObjAfterOpen fuel rest
      else
        match stripPre litTrue (c :: rest) with
        | some r => some (Json.bool true, r)
        | none =>
          match stripPre litFalse (c :: rest) with
          | some r => some (Json.bool false, r)
          | none =>
            match stripPre litNull (c :: rest) with
            | some r => some (Json.null, r)
            | none =>
              (parseNumLex (c :: rest)).map
                (fun p => (Json.num (String.mk p.1), p.2))

/-- Array contents directly after the opening bracket. -/
def parseArrAfterOpen (fuel : Nat) (s : List Char) : Option (Json × List Char) :=
  match fuel with
  | 0 => none
  | fuel + 1 =>
    match skipWs s with
    | c :: rest =>
      if c = rbrack then some (Json.arr [], rest)
      else
        (parseArrItems fuel s).map (fun p => (Json.arr p.1, p.2))
    | [] => none

/-- One or more comma-separated array elements, then the closing
bracket. -/
def parseArrItems (fuel : Nat) (s : List Char) : Option (List Json × List Char) :=
  match fuel with
  | 0 => none
  | fuel + 1 =>
    match parseVal fuel s with
    | none => none
    | some (v, r) =>
      match skipWs r with
      | c :: r2 =>
        if c = ',' then
          (parseArrItems fuel r2).map (fun p => (v :: p.1, p.2))
        else if c = rbrack then some ([v], r2)
        else none
      | [] => none

/-- Object contents directly after the opening brace. -/
def parseObjAfterOpen (fuel : Nat) (s : List Char) : Option (Json × List Char) :=
  match fuel with
  | 0 => none
  | fuel + 1 =>
    match skipWs s with
    | c :: rest =>
      if c = rbrace then some (Json.obj [], rest)
      else
        (parseObjItems fuel s).map (fun p => (Json.obj p.1, p.2))
    | [] => none

/-- One or more comma-separated `"key": value` pairs, then the closing
brace. -/
def parseObjItems (fuel : Nat) (s : List Char) :
    Option (List (String × Json) × List Char) :=
  match fuel with
  | 0 => none
  | fuel + 1 =>
    match skipWs s with
    | c :: rest =>
      if c = quot then
        match parseStrBody rest with
        | none => none
        | some (key, r1) =>
          match skipWs r1 with
          | ':' :: r2 =>
            match parseVal fuel r2 with
            | none => none
            | some (v, r3) =>
              match skipWs r3 with
              | d :: r4 =>
                if d = ',' then
                  (parseObjItems fuel r4).map
                    (fun p => ((String.mk key, v) :: p.1, p.2))
                else if d = rbrace then some ([(String.mk key, v)], r4)
                else none
              | [] => none
          | _ => none
      else none
    | [] => none

end

/-- `JSON.parse` on a whole input: one value, then only trailing
whitespace.  The fuel is generous; every recursive call either consumes
input or moves to a strictly smaller grammar state. -/
def jsonParse (s : List Char) : Option Json :=
  match parseVal (8 * s.length + 8) s with
  | some (v, rest) => if skipWs rest = [] then some v else none
  | none => none

/-- The span matched by the greedy regex of `parseWorkspaceActions`:
from the first opening bracket to the last closing bracket of the text
(the closing bracket must come after the opening one).  A backtracking
engine that retries later opening brackets agrees with this: if a later
opening bracket is followed by some closing bracket, so is the first
one. -/
def extractSpan (s : List Char) : Option (List Char) :=
  match s.dropWhile (fun c => c != lbrack) with
  | [] => none
  | c :: rest =>
    match (c :: rest).reverse.dropWhile (fun d => d != rbrack) with
    | [] => none
    | d :: rest2 => some ((d :: rest2).reverse)

/-- JavaScript property read `v.k`: `none` models the `TypeError` thrown
on `null`; `some none` models reading `undefined` (missing key, or a
property of a primitive or array). -/
def propAccess : Json → String → Option (Option Json)
  | Json.null, _ => none
  | Json.obj fields, k =>
    match (fields.filter (fun f => f.1 = k)).getLast? with
    | some f => some (some f.2)
    | none => some none
  | _, _ => some none

/-- Whether the mantissa of a JSON number lexeme is all zeros (so the
number is JavaScript-falsy).  Exponent underflow to zero is not
modelled. -/
def numIsZero (raw : String) : Bool :=
  (raw.data.takeWhile (fun c => !(c == 'e') && !(c == 'E'))).all
    (fun c => !c.isDigit || c == '0')

/-- JavaScript truthiness of a property-read result. -/
def truthy : Option Json → Bool
  | none => false
  | some Json.null => false
  | some (Json.bool b) => b
  | some (Json.num raw) => !numIsZero raw
  | some (Json.str s) => !(s == "")
  | some (Json.arr _) => true
  | some (Json.obj _) => true

def validTypes : List String := ["view", "create", "modify", "delete"]

/-- The body of the `filter` callback in `parseWorkspaceActions`:
`some b` is its boolean result, `none` models the `TypeError` thrown by
the property reads when the element is `null`. -/
def actionCheck (j : Json) : Option Bool :=
  match propAccess j "type" with
  | none => none
  | some ty =>
    match propAccess j "path" with
    | none => none
    | some pa =>
      if !truthy ty || !truthy pa then some false
      else
        some (match ty with
          | some (Json.str t) => validTypes.contains t
          | _ => false)

/-- `Array.prototype.filter` over the decoded elements: `none` when the
callback throws on some element (the caller catches this and yields no
actions). -/
def filterActions : List Json → Option (List Json)
  | [] => some []
  | j :: rest =>
    match actionCheck j with
    | none => none
    | some b =>
      match filterActions rest with
      | none => none
      | some r => some (if b then j :: r else r)

/-- An element kept by the filter: the callback returns `true`. -/
def wellFormedAction (j : Json) : Bool :=
  (actionCheck j).getD false

/-- `parseWorkspaceActions` from `extension.ts`: regex-extract the
first-to-last bracket span, `JSON.parse` it, filter the elements; every
thrown exception is caught and yields the empty list. -/
def parseWorkspaceActions (responseText : String) : List Json :=
  match extractSpan responseText.data with
  | none => []
  | some span =>
    match jsonParse span with
    | some (Json.arr elems) =>
      match filterActions elems with
      | some acts => acts
      | none => []
    | _ => []

/-- JavaScript `str.replace(/pat/g, rep)` for a nonempty literal pattern
`pat` and a replacement `rep` free of dollar signs: replace every
non-overlapping occurrence, left to right, without rescanning the
replacement.  (The patterns below are never empty; the guard only keeps
the function total.) -/
def replaceAllF (pat rep : List Char) : Nat → List Char → List Char
  | _, [] => []
  | 0, c :: rest => c :: rest
  | fuel + 1, c :: rest =>
    match stripPre pat (c :: rest) with
    | some r => rep ++ replaceAllF pat rep fuel r
    | none => c :: replaceAllF pat rep fuel rest

def replaceAll (pat rep s : List Char) : List Char :=
  match pat with
  | [] => s
  | _ :: _ => replaceAllF pat rep s.length s

def nChr : Char := 'n'

def rChr : Char := 'r'

def tChr : Char := 't'

/-- `escapeJsonString` from `extension.ts`, on character lists. -/
def escapeL (s : List Char) : List Char :=
  replaceAll [tabc] [bsl, tChr]
    (replaceAll [cr] [bsl, rChr]
      (replaceAll [lf] [bsl, nChr]
        (replaceAll [quot] [bsl, quot]
          (replaceAll [bsl] [bsl, bsl] s))))

/-- `unescapeJsonString` from `extension.ts`, on character lists. -/
def unescapeL (s : List Char) : List Char :=
  replaceAll [bsl, bsl] [bsl]
    (replaceAll [bsl, quot] [quot]
      (replaceAll [bsl, tChr] [tabc]
        (replaceAll [bsl, rChr] [cr]
          (replaceAll [bsl, nChr] [lf] s))))

def escapeJsonString (str : String) : String :=
  String.mk (escapeL str.data)

def unescapeJsonString (str : String) : String :=
  String.mk (unescapeL str.data)

/-- Concatenation of per-character images; the closed form in which the
escaping pipeline is analysed. -/
def concatMap (f : Char → List Char) : List Char → List Char
  | [] => []
  | c :: rest => f c ++ concatMap f rest

/-- Per-character effect of the full escaping pipeline. -/
def encFull (c : Char) : List Char :=
  if c = bsl then [bsl, bsl]
  else if c = quot then [bsl, quot]
  else if c = lf then [bsl, nChr]
  else if c = cr then [bsl, rChr]
  else if c = tabc then [bsl, tChr]
  else [c]

/-- `encFull` after the backslash-n pass of unescaping. -/
def enc1 (c : Char) : List Char :=
  if c = bsl then [bsl, bsl]
  else if c = quot then [bsl, quot]
  else if c = cr then [bsl, rChr]
  else if c = tabc then [bsl, tChr]
  else [c]

/-- `enc1` after the backslash-r pass. -/
def enc2 (c : Char) : List Char :=
  if c = bsl then [bsl, bsl]
  else if c = quot then [bsl, quot]
  else if c = tabc then [bsl, tChr]
  else [c]

/-- `enc2` after the backslash-t pass. -/
def enc3 (c : Char) : List Char :=
  if c = bsl then [bsl, bsl]
  else if c = quot then [bsl, quot]
  else [c]

/-- `enc3` after the backslash-quote pass. -/
def enc4 (c : Char) : List Char :=
  if c = bsl then [bsl, bsl] else [c]

/-- Split `s` around the first occurrence of `pat`: the part before the
match and the part after it. -/
def splitFirst (pat : List Char) : List Char → Option (List Char × List Char)
  | [] => match stripPre pat [] with
    | some r => some ([], r)
    | none => none
  | c :: rest =>
    match stripPre pat (c :: rest) with
    | some r => some ([], r)
    | none => (splitFirst pat rest).map (fun p => (c :: p.1, p.2))

/-- The ECMAScript `GetSubstitution` on a replacement string for a
string-pattern search (no capture groups): `$$`, `$&`, dollar-backtick
and dollar-apostrophe are special, any other dollar is literal. -/
def getSubstitution (matched before after : List Char) : List Char → List Char
  | [] => []
  | [c] => [c]
  | c :: d :: rest2 =>
    if c = dollar then
      if d = dollar then dollar :: getSubstitution matched before after rest2
      else if d = amp then matched ++ getSubstitution matched before after rest2
      else if d = btick then before ++ getSubstitution matched before after rest2
      else if d = apos then after ++ getSubstitution matched before after rest2
      else dollar :: getSubstitution matched before after (d :: rest2)
    else c :: getSubstitution matched before after (d :: rest2)

/-- JavaScript `s.replace(pat, rep)` with two string arguments: replace
only the first occurrence, with `GetSubstitution` applied to the
replacement; if the pattern does not occur, return `s` unchanged. -/
def jsReplaceFirst (pat rep s : String) : String :=
  match splitFirst pat.data s.data with
  | none => s
  | some (before, after) =>
    String.mk (before ++ getSubstitution pat.data before after rep.data ++ after)

/-- Modelled from the spec: the replacement step as §4.3 words it,
"replace first literal occurrence of `oldFragment` with `newFragment`",
with the replacement inserted verbatim.  Used to compare the source's
`.replace` semantics against the spec's description. -/
def literalReplaceFirst (pat rep s : String) : String :=
  match splitFirst pat.data s.data with
  | none => s
  | some (before, after) => String.mk (before ++ rep.data ++ after)

/-- Split a character list at every slash. -/
def splitSlash : List Char → List (List Char)
  | [] => [[]]
  | c :: rest =>
    match splitSlash rest with
    | [] => [[c]]
    | h :: t => if c = '/' then [] :: h :: t else (c :: h) :: t

/-- Resolve `.` and `..` segments, accumulating onto a reversed stack,
as `path.normalize` does. -/
def normStack (isAbs : Bool) : List String → List String → List String
  | stack, [] => stack
  | stack, seg :: rest =>
    if seg = "" || seg = "." then normStack isAbs stack rest
    else if seg = ".." then
      match stack with
      | [] => if isAbs then normStack isAbs [] rest
              else normStack isAbs [".."] rest
      | top :: s2 =>
        if top = ".." then normStack isAbs (".." :: top :: s2) rest
        else normStack isAbs s2 rest
    else normStack isAbs (seg :: stack) rest

/-- Node `path.normalize` on posix paths (trailing-separator
preservation is not modelled; no modelled input has one). -/
def normalizePath (p : String) : String :=
  let isAbs := p.data.headD ' ' == '/'
  let segs := (splitSlash p.data).map String.mk
  let stack := normStack isAbs [] segs
  let core := String.intercalate "/" stack.reverse
  if isAbs then String.mk ('/' :: core.data)
  else if core = "" then "." else core

/-- Node `path.join` of two paths, as used for
`path.join(workspaceRoot.uri.fsPath, action.path)`. -/
def pathJoin (a b : String) : String :=
  if a = "" && b = "" then "."
  else if a = "" then normalizePath b
  else if b = "" then normalizePath a
  else normalizePath (String.mk (a.data ++ '/' :: b.data))

/-- The workspace file system: contents keyed by joined path.  Reads,
overwriting writes and deletes model `readFileSync`, `writeFileSync`
and `unlinkSync`; parent-directory creation has no observable effect
here. -/
abbrev FileSys := List (String × String)

def fsRead : FileSys → String → Option String
  | [], _ => none
  | e :: rest, p => if e.1 = p then some e.2 else fsRead rest p

def fsWrite : FileSys → String → String → FileSys
  | [], p, v => [(p, v)]
  | e :: rest, p, v => if e.1 = p then (p, v) :: rest else e :: fsWrite rest p v

def fsDelete : FileSys → String → FileSys
  | [], _ => []
  | e :: rest, p => if e.1 = p then fsDelete rest p else e :: fsDelete rest p

/-- JavaScript object assignment `o[k] = v`: update in place or append. -/
def upsert : List (String × String) → String → String → List (String × String)
  | [], k, v => [(k, v)]
  | e :: rest, k, v => if e.1 = k then (k, v) :: rest else e :: upsert rest k v

/-- Observable per-action outcomes of a round, in execution order. -/
inductive Event where
  | view (p : String) : Event
  | applied (ty p : String) : Event
  | skipped (ty p : String) : Event
  | failed (ty p : String) : Event
deriving DecidableEq, Repr

def isViewEvent : Event → Bool
  | Event.view _ => true
  | _ => false

def eventPath : Event → String
  | Event.view p => p
  | Event.applied _ p => p
  | Event.skipped _ p => p
  | Event.failed _ p => p

/-- Whether a trace runs all non-view events strictly before all view
events (the order claim C2 asserts). -/
def nonViewsFirst (tr : List Event) : Bool :=
  (tr.dropWhile (fun e => !isViewEvent e)).all isViewEvent

/-- Session state: the file system, the `completedActions` counter, and
how many confirmation prompts have been shown (the index into the
confirmation oracle). -/
structure Sys where
  fs : FileSys
  completed : Nat
  confirms : Nat
deriving DecidableEq, Repr

/-- `action.type === t` for a string literal `t`. -/
def typeIs (a : Json) (t : String) : Bool :=
  match propAccess a "type" with
  | some (some (Json.str u)) => u = t
  | _ => false

/-- `action.type === "view"`, the partition test of the loop. -/
def isViewAction (a : Json) : Bool :=
  typeIs a "view"

/-- Whether `a.k` is a string (so that `path.join` or a `.replace`
chain on it cannot throw). -/
def strField (a : Json) (k : String) : Bool :=
  match propAccess a k with
  | some (some (Json.str _)) => true
  | _ => false

/-- `action.f ? unescapeJsonString(action.f) : ""`: `none` models the
`TypeError` thrown by `.replace` when the field is truthy but not a
string. -/
def contentArg (a : Json) (k : String) : Option String :=
  match propAccess a k with
  | none => none
  | some v =>
    if truthy v then
      match v with
      | some (Json.str s) => some (unescapeJsonString s)
      | _ => none
    else some ""

/-- One `View` action: read the joined path, record the escaped content
or the error placeholder under the raw `action.path` key.  `none`
models the uncaught `TypeError` of `path.join` on a non-string path. -/
def execView (root : String) (a : Json) (fs : FileSys)
    (vr : List (String × String)) : Option (List (String × String) × Event) :=
  match propAccess a "path" with
  | some (some (Json.str p)) =>
    match fsRead fs (pathJoin root p) with
    | some content => some (upsert vr p (escapeJsonString content), Event.view p)
    | none => some (upsert vr p "Error: Cannot read file", Event.view p)
  | _ => none

/-- The view loop of a round, in parsed order. -/
def execViews (root : String) : List Json → FileSys → List (String × String) →
    Option (List (String × String) × List Event)
  | [], _, vr => some (vr, [])
  | a :: rest, fs, vr =>
    match execView root a fs vr with
    | none => none
    | some (vr2, e) =>
      (execViews root rest fs vr2).map (fun p => (p.1, e :: p.2))

/-- One non-view action, gated by its confirmation prompt.  Mirrors the
`create` / `modify` / `delete` branches of `askiiDoCommand`: `create`
failures are uncaught (`none`), `modify` and `delete` failures are
caught per action. -/
def execOther (root : String) (confirm : Nat → Bool) (a : Json) (sys : Sys) :
    Option (Sys × List Event) :=
  match propAccess a "path" with
  | some (some (Json.str p)) =>
    let filePath := pathJoin root p
    if typeIs a "create" then
      let ok := confirm sys.confirms
      let sys1 : Sys := { sys with confirms := sys.confirms + 1 }
      if ok then
        match contentArg a "content" with
        | none => none
        | some content =>
          some ({ sys1 with
                    fs := fsWrite sys1.fs filePath content,
                    completed := sys1.completed + 1 },
                [Event.applied "create" p])
      else some (sys1, [Event.skipped "create" p])
    else if typeIs a "modify" then
      let ok := confirm sys.confirms
      let sys1 : Sys := { sys with confirms := sys.confirms + 1 }
      if ok then
        match fsRead sys1.fs filePath with
        | none => some (sys1, [Event.failed "modify" p])
        | some content =>
          match contentArg a "oldContent", contentArg a "newContent" with
          | some oldC, some newC =>
            some ({ sys1 with
                      fs := fsWrite sys1.fs filePath
                              (jsReplaceFirst oldC newC content),
                      completed := sys1.completed + 1 },
                  [Event.applied "modify" p])
          | _, _ => some (sys1, [Event.failed "modify" p])
      else some (sys1, [Event.skipped "modify" p])
    else if typeIs a "delete" then
      let ok := confirm sys.confirms
      let sys1 : Sys := { sys with confirms := sys.confirms + 1 }
      if ok then
        match fsRead sys1.fs filePath with
        | none => some (sys1, [Event.failed "delete" p])
        | some _ =>
          some ({ sys1 with
                    fs := fsDelete sys1.fs filePath,
                    completed := sys1.completed + 1 },
                [Event.applied "delete" p])
      else some (sys1, [Event.skipped "delete" p])
    else some (sys, [])
  | _ => none

/-- The non-view loop of a round, in parsed order. -/
def execOthers (root : String) (confirm : Nat → Bool) :
    List Json → Sys → Option (Sys × List Event)
  | [], sys => some (sys, [])
  | a :: rest, sys =>
    match execOther root confirm a sys with
    | none => none
    | some (sys2, evs) =>
      (execOthers root confirm rest sys2).map (fun p => (p.1, evs ++ p.2))

structure RoundOut where
  sys : Sys
  viewResults : List (String × String)
  trace : List Event
deriving DecidableEq, Repr

/-- One round of `askiiDoCommand` after parsing: partition into view and
non-view actions, run the view loop first collecting `viewResults`,
then the confirmation-gated non-view loop.  `none` models an uncaught
exception aborting the command. -/
def execRound (root : String) (confirm : Nat → Bool) (actions : List Json)
    (sys : Sys) : Option RoundOut :=
  match execViews root (actions.filter isViewAction) sys.fs [] with
  | none => none
  | some (vr, tr1) =>
    match execOthers root confirm (actions.filter (fun a => !isViewAction a)) sys with
    | none => none
    | some (sys2, tr2) => some ⟨sys2, vr, tr1 ++ tr2⟩

/-- An action that cannot abort the round: its path is a string and, for
a `create`, its content is absent, falsy, or a string. -/
def actionSafe (a : Json) : Bool :=
  strField a "path" &&
  (!typeIs a "create" ||
    (match propAccess a "content" with
     | none => false
     | some v => !truthy v || (match v with
        | some (Json.str _) => true
        | _ => false)))

def roundSafe (acts : List Json) : Bool :=
  acts.all actionSafe

structure LoopOut where
  sys : Sys
  calls : Nat
  aborted : Bool
deriving DecidableEq, Repr

/-- The `while (roundCount < maxRounds)` loop of `askiiDoCommand`.  The
fuel is `maxRounds - roundCount`, which falls by exactly one on every
continuing iteration; `calls` counts LLM transport calls and indexes the
response oracle; an empty parse or an empty `viewResults` breaks out of
the loop; an uncaught executor exception aborts the command. -/
def runLoopAux (respond : Nat → String) (confirm : Nat → Bool) (root : String) :
    Nat → Sys → Nat → LoopOut
  | 0, sys, calls => ⟨sys, calls, false⟩
  | fuel + 1, sys, calls =>
    let actions := parseWorkspaceActions (respond calls)
    if actions.isEmpty then ⟨sys, calls + 1, false⟩
    else
      match execRound root confirm actions sys with
      | none => ⟨sys, calls + 1, true⟩
      | some out =>
        if out.viewResults.isEmpty then ⟨out.sys, calls + 1, false⟩
        else runLoopAux respond confirm root fuel out.sys (calls + 1)

/-- A whole `askiiDoCommand` session over an empty workspace state:
round counter 0, `completedActions` 0, no prompts shown. -/
def runSession (respond : Nat → String) (confirm : Nat → Bool) (root : String)
    (maxRounds : Nat) : LoopOut :=
  runLoopAux respond confirm root maxRounds ⟨[], 0, 0⟩ 0

def isNullJson : Json → Bool
  | Json.null => true
  | _ => false

/-- The `path` field of a validated action. -/
def pathOf (a : Json) : String :=
  match propAccess a "path" with
  | some (some (Json.str p)) => p
  | _ => ""

/-- A concrete `create` action in the wire format. -/
def createAction (p c : String) : Json :=
  Json.obj [("type", Json.str "create"), ("path", Json.str p),
            ("content", Json.str c)]

/-- A concrete `modify` action in the wire format. -/
def modifyAction (p o n : String) : Json :=
  Json.obj [("type", Json.str "modify"), ("path", Json.str p),
            ("oldContent", Json.str o), ("newContent", Json.str n)]

/-- A concrete `view` action in the wire format. -/
def viewAction (p : String) : Json :=
  Json.obj [("type", Json.str "view"), ("path", Json.str p)]

/-!
Theorems.  General lemmas first, then one theorem per claim (with its
witness or counterexample where required).
-/

theorem stripPre_length_le : ∀ (pat s r : List Char),
    stripPre pat s = some r → r.length ≤ s.length
  | [], s, r, h => by simp [stripPre] at h; simp [h]
  | _ :: _, [], _, h => by simp [stripPre] at h
  | p :: ps, c :: cs, r, h => by
    by_cases hpc : p = c
    · simp [stripPre, hpc] at h
      exact Nat.le_succ_of_le (stripPre_length_le ps cs r h)
    · simp [stripPre, hpc] at h

/-- Claim C9: an input with no array structure, and an input whose
extracted span fails JSON decoding, both make `parseWorkspaceActions`
return the empty sequence; the function is total, so no exception
reaches the caller. -/
theorem claim9_empty_on_garbage (s : String) :
    (extractSpan s.data = none → parseWorkspaceActions s = []) ∧
    (∀ span, extractSpan s.data = some span → jsonParse span = none →
      parseWorkspaceActions s = []) := by
  constructor
  · intro h
    simp [parseWorkspaceActions, h]
  · intro span h1 h2
    simp [parseWorkspaceActions, h1, h2]

/-- Witness for C9 at the spec's own example input, which contains no
bracket at all. -/
theorem claim9_witness :
    extractSpan "I cannot help with that.".data = none ∧
    parseWorkspaceActions "I cannot help with that." = [] := by
  refine ⟨by decide, ?_⟩
  exact (claim9_empty_on_garbage "I cannot help with that.").1 (by decide)

/-- Claim C5 (evidence of the code bug): the executor happily applies a
confirmed create whose path escapes the workspace root by traversal.
With root `/ws` and path `../outside.txt` the write lands at
`/outside.txt`, which is not inside `/ws`. -/
theorem claim5_traversal_write_lands_outside_root :
    execOther "/ws" (fun _ => true) (createAction "../outside.txt" "x") ⟨[], 0, 0⟩ =
      some (⟨[("/outside.txt", "x")], 1, 1⟩,
        [Event.applied "create" "../outside.txt"]) ∧
    "/ws/".data.isPrefixOf "/outside.txt".data = false ∧
    "/outside.txt" ≠ "/ws" := by
  refine ⟨by decide, by decide, by decide⟩

/-- Claim C8: a declined (or dismissed) `create` confirmation leaves the
file system and `completedCount` unchanged; only the prompt counter
advances, and the outcome is a skip, not a failure. -/
theorem claim8_decline_create_noop (root : String) (confirm : Nat → Bool)
    (a : Json) (p : String) (sys : Sys)
    (hty : typeIs a "create" = true)
    (hpath : propAccess a "path" = some (some (Json.str p)))
    (hconf : confirm sys.confirms = false) :
    execOther root confirm a sys =
      some ({ sys with confirms := sys.confirms + 1 },
        [Event.skipped "create" p]) := by
  simp [execOther, hpath, hty, hconf]

/-- Witness for C8 at a concrete declined create over a nonempty file
system. -/
theorem claim8_witness :
    execOther "/ws" (fun _ => false) (createAction "x" "a") ⟨[("/ws/q", "1")], 3, 7⟩ =
      some (⟨[("/ws/q", "1")], 3, 8⟩, [Event.skipped "create" "x"]) := by
  exact claim8_decline_create_noop "/ws" (fun _ => false) (createAction "x" "a")
    "x" ⟨[("/ws/q", "1")], 3, 7⟩ (by decide) (by rfl) (by decide)

theorem propAccess_ne_none : ∀ (j : Json) (k : String), isNullJson j = false →
    ∃ v, propAccess j k = some v
  | Json.null, _, h => by simp [isNullJson] at h
  | Json.bool _, _, _ => ⟨none, rfl⟩
  | Json.num _, _, _ => ⟨none, rfl⟩
  | Json.str _, _, _ => ⟨none, rfl⟩
  | Json.arr _, _, _ => ⟨none, rfl⟩
  | Json.obj fields, k, _ => by
    cases hl : (fields.filter (fun f => f.1 = k)).getLast? <;>
      simp [propAccess, hl]

/-- The filter callback returns a boolean (rather than throwing) on
every element that is not JSON `null`. -/
theorem actionCheck_isSome (j : Json) (h : isNullJson j = false) :
    actionCheck j = some (wellFormedAction j) := by
  obtain ⟨ty, hty⟩ := propAccess_ne_none j "type" h
  obtain ⟨pa, hpa⟩ := propAccess_ne_none j "path" h
  have h2 : ∃ b, actionCheck j = some b := by
    simp only [actionCheck, hty, hpa]
    split
    · exact ⟨_, rfl⟩
    · exact ⟨_, rfl⟩
  obtain ⟨b, hb⟩ := h2
  rw [hb, wellFormedAction, hb]
  rfl

/-- On a decoded array without `null` elements, the filter keeps exactly
the well-formed actions, in order. -/
theorem filterActions_no_null (elems : List Json)
    (h : elems.all (fun j => !isNullJson j) = true) :
    filterActions elems = some (elems.filter wellFormedAction) := by
  induction elems with
  | nil => rfl
  | cons j rest ih =>
    simp only [List.all_cons, Bool.and_eq_true, Bool.not_eq_true'] at h
    rw [filterActions, actionCheck_isSome j h.1, ih h.2, List.filter_cons]

/-- Claim C1 (amended): whenever the span from the first `[` to the last
`]` of the response text decodes as a JSON array with no `null`
elements, `parseWorkspaceActions` returns exactly the well-formed
actions of that array (recognized type among view/create/modify/delete
and truthy path), in order, ignoring all surrounding text. -/
theorem claim1_parser_salvage (s : String) (span : List Char) (elems : List Json)
    (h1 : extractSpan s.data = some span)
    (h2 : jsonParse span = some (Json.arr elems))
    (h3 : elems.all (fun j => !isNullJson j) = true) :
    parseWorkspaceActions s = elems.filter wellFormedAction := by
  simp [parseWorkspaceActions, h1, h2, filterActions_no_null elems h3]

/-- Witness for C1 at the example from the spec: the bogus-typed entry
is dropped and exactly the view action survives. -/
theorem claim1_witness :
    parseWorkspaceActions
        "Sure!\n[\x7b\"type\":\"view\",\"path\":\"a.txt\"\x7d,\x7b\"type\":\"bogus\",\"path\":\"b\"\x7d]\nDone." =
      [Json.obj [("type", Json.str "view"), ("path", Json.str "a.txt")]] := by
  have h := claim1_parser_salvage
    "Sure!\n[\x7b\"type\":\"view\",\"path\":\"a.txt\"\x7d,\x7b\"type\":\"bogus\",\"path\":\"b\"\x7d]\nDone."
    "[\x7b\"type\":\"view\",\"path\":\"a.txt\"\x7d,\x7b\"type\":\"bogus\",\"path\":\"b\"\x7d]".data
    [Json.obj [("type", Json.str "view"), ("path", Json.str "a.txt")],
     Json.obj [("type", Json.str "bogus"), ("path", Json.str "b")]]
    (by rfl) (by rfl) (by rfl)
  exact h.trans (by rfl)

/-- Counterexample to C1 as stated: this response text contains a valid
JSON array with one well-formed view action, embedded in prose, yet
`parseWorkspaceActions` returns the empty list instead of that action:
the greedy first-to-last-bracket extraction also swallows the `[1]` of
the prose and the decode of the enlarged span fails. -/
theorem claim1_counterexample :
    (∃ pre post : String,
      "Look at [1]. [\x7b\"type\":\"view\",\"path\":\"a.txt\"\x7d] Done." =
        pre ++ "[\x7b\"type\":\"view\",\"path\":\"a.txt\"\x7d]" ++ post) ∧
    jsonParse "[\x7b\"type\":\"view\",\"path\":\"a.txt\"\x7d]".data =
      some (Json.arr [Json.obj [("type", Json.str "view"), ("path", Json.str "a.txt")]]) ∧
    wellFormedAction (Json.obj [("type", Json.str "view"), ("path", Json.str "a.txt")]) = true ∧
    parseWorkspaceActions "Look at [1]. [\x7b\"type\":\"view\",\"path\":\"a.txt\"\x7d] Done." = [] ∧
    parseWorkspaceActions "Look at [1]. [\x7b\"type\":\"view\",\"path\":\"a.txt\"\x7d] Done." ≠
      [Json.obj [("type", Json.str "view"), ("path", Json.str "a.txt")]] := by
  refine ⟨⟨"Look at [1]. ", " Done.", by rfl⟩, by rfl, by rfl, by rfl, ?_⟩
  intro h
  rw [show parseWorkspaceActions "Look at [1]. [\x7b\"type\":\"view\",\"path\":\"a.txt\"\x7d] Done." = [] from rfl] at h
  exact List.noConfusion h

/-- `GetSubstitution` inserts the replacement verbatim when it contains
no dollar sign. -/
theorem getSubstitution_no_dollar :
    ∀ (matched before after rep : List Char),
      rep.all (fun c => !(c == dollar)) = true →
      getSubstitution matched before after rep = rep
  | _, _, _, [], _ => rfl
  | _, _, _, [_], _ => rfl
  | m, b, a, c :: d :: rest, h => by
    simp only [List.all_cons, Bool.and_eq_true, Bool.not_eq_true',
      beq_eq_false_iff_ne, ne_eq] at h
    rw [getSubstitution, if_neg h.1]
    rw [getSubstitution_no_dollar m b a (d :: rest)
      (by simp only [List.all_cons, Bool.and_eq_true, Bool.not_eq_true',
            beq_eq_false_iff_ne, ne_eq]
          exact h.2)]

/-- With a dollar-free replacement, the source's `.replace` agrees with
the spec's literal first-occurrence replacement. -/
theorem jsReplaceFirst_no_dollar (pat rep s : String)
    (h : rep.data.all (fun c => !(c == dollar)) = true) :
    jsReplaceFirst pat rep s = literalReplaceFirst pat rep s := by
  unfold jsReplaceFirst literalReplaceFirst
  cases hs : splitFirst pat.data s.data with
  | none => rfl
  | some p =>
    cases p with
    | mk before after => simp [getSubstitution_no_dollar _ _ _ _ h]

/-- A well-typed action has exactly one type, so only its own dispatch
branch fires. -/
theorem typeIs_excl (a : Json) (t t' : String) (h : typeIs a t = true)
    (hne : t ≠ t') : typeIs a t' = false := by
  unfold typeIs at h ⊢
  cases hp : propAccess a "type" with
  | none => simp [hp] at h
  | some v =>
    rw [hp] at h
    match v with
    | none => exact absurd h (by simp)
    | some Json.null => exact absurd h (by simp)
    | some (Json.bool _) => exact absurd h (by simp)
    | some (Json.num _) => exact absurd h (by simp)
    | some (Json.arr _) => exact absurd h (by simp)
    | some (Json.obj _) => exact absurd h (by simp)
    | some (Json.str u) =>
      simp only [decide_eq_true_eq] at h
      subst h
      simp [hne]

/-- The effective fragment of a string-valued field: empty string (falsy)
and non-empty both give the unescaped field. -/
theorem contentArg_of_str (a : Json) (k : String) (o : String)
    (h : propAccess a k = some (some (Json.str o))) :
    contentArg a k = some (unescapeJsonString o) := by
  by_cases ho : o = ""
  · subst ho
    simp only [contentArg, h, truthy]
    rfl
  · simp [contentArg, h, truthy, ho]

/-- Claim C7 (amended): a confirmed modify on a readable file writes
back `content.replace(oldFragment, newFragment)` — the first literal
occurrence of the unescaped `oldFragment` replaced under JavaScript
substitution rules — and counts as a completed action even when the
fragment does not occur (the write proceeds with the content
unchanged); when the replacement contains no dollar sign, this is
exactly the literal replacement of the spec; when the file cannot be
read, the action fails and `completedCount` is unchanged. -/
theorem claim7_modify_semantics (root : String) (confirm : Nat → Bool)
    (a : Json) (p o n : String) (sys : Sys)
    (hty : typeIs a "modify" = true)
    (hpath : propAccess a "path" = some (some (Json.str p)))
    (hold : propAccess a "oldContent" = some (some (Json.str o)))
    (hnew : propAccess a "newContent" = some (some (Json.str n)))
    (hconf : confirm sys.confirms = true) :
    (∀ content, fsRead sys.fs (pathJoin root p) = some content →
      execOther root confirm a sys =
        some ({ sys with
                  fs := fsWrite sys.fs (pathJoin root p)
                          (jsReplaceFirst (unescapeJsonString o)
                            (unescapeJsonString n) content),
                  confirms := sys.confirms + 1,
                  completed := sys.completed + 1 },
              [Event.applied "modify" p])) ∧
    (fsRead sys.fs (pathJoin root p) = none →
      execOther root confirm a sys =
        some ({ sys with confirms := sys.confirms + 1 },
              [Event.failed "modify" p])) ∧
    (∀ pat rep str : String, rep.data.all (fun c => !(c == dollar)) = true →
      jsReplaceFirst pat rep str = literalReplaceFirst pat rep str) ∧
    (∀ pat rep str : String, splitFirst pat.data str.data = none →
      jsReplaceFirst pat rep str = str) := by
  have hcr : typeIs a "create" = false :=
    typeIs_excl a "modify" "create" hty (by decide)
  refine ⟨?_, ?_, ?_, ?_⟩
  · intro content hread
    simp [execOther, hpath, hcr, hty, hconf, hread,
      contentArg_of_str a "oldContent" o hold,
      contentArg_of_str a "newContent" n hnew]
  · intro hread
    simp [execOther, hpath, hcr, hty, hconf, hread]
  · intro pat rep str hnd
    exact jsReplaceFirst_no_dollar pat rep str hnd
  · intro pat rep str hns
    simp [jsReplaceFirst, hns]

/-- Witness for C7: a confirmed modify whose fragment does not occur in
the file writes the content back unchanged and still increments the
completed counter. -/
theorem claim7_witness :
    execOther "/ws" (fun _ => true) (modifyAction "f.txt" "zz" "w")
        ⟨[("/ws/f.txt", "a")], 0, 0⟩ =
      some (⟨[("/ws/f.txt", "a")], 1, 1⟩, [Event.applied "modify" "f.txt"]) := by
  have h := claim7_modify_semantics "/ws" (fun _ => true)
    (modifyAction "f.txt" "zz" "w") "f.txt" "zz" "w" ⟨[("/ws/f.txt", "a")], 0, 0⟩
    (by decide) (by rfl) (by rfl) (by rfl) (by decide)
  exact (h.1 "a" (by decide)).trans (by decide)

/-- Counterexample to C7 as stated: with `newFragment` equal to
dollar-ampersand followed by `b`, the source's `.replace` does not
insert the fragment literally: on file content `a` with `oldFragment`
`a` the file ends up containing `ab`, not the literal fragment. -/
theorem claim7_counterexample :
    execOther "/ws" (fun _ => true) (modifyAction "f.txt" "a" "$&b")
        ⟨[("/ws/f.txt", "a")], 0, 0⟩ =
      some (⟨[("/ws/f.txt", "ab")], 1, 1⟩, [Event.applied "modify" "f.txt"]) ∧
    jsReplaceFirst "a" "$&b" "a" = "ab" ∧
    literalReplaceFirst "a" "$&b" "a" = "$&b" ∧
    ("ab" : String) ≠ "$&b" :=
  ⟨by decide, by decide, by decide, by decide⟩

/-- Reading back the key just written returns the written value. -/
theorem fsRead_fsWrite (fs : FileSys) (k v : String) :
    fsRead (fsWrite fs k v) k = some v := by
  induction fs with
  | nil => simp [fsWrite, fsRead]
  | cons e rest ih =>
    by_cases he : e.1 = k
    · simp [fsWrite, he, fsRead]
    · simp [fsWrite, he, fsRead, ih]

/-- A confirmed create writes the unescaped content at the joined path
and increments the completed counter. -/
theorem execOther_create_confirmed (root : String) (confirm : Nat → Bool)
    (p c : String) (sys : Sys) (h : confirm sys.confirms = true) :
    execOther root confirm (createAction p c) sys =
      some ({ sys with
                fs := fsWrite sys.fs (pathJoin root p) (unescapeJsonString c),
                confirms := sys.confirms + 1,
                completed := sys.completed + 1 },
            [Event.applied "create" p]) := by
  have hpa : propAccess (createAction p c) "path" = some (some (Json.str p)) := rfl
  have hty : typeIs (createAction p c) "create" = true := rfl
  have hca := contentArg_of_str (createAction p c) "content" c rfl
  simp [execOther, hpa, hty, h, hca]

/-- A confirmed modify on a readable file rewrites it with the
`.replace` result and increments the completed counter. -/
theorem execOther_modify_applied (root : String) (confirm : Nat → Bool)
    (p o n : String) (sys : Sys) (content : String)
    (hconf : confirm sys.confirms = true)
    (hread : fsRead sys.fs (pathJoin root p) = some content) :
    execOther root confirm (modifyAction p o n) sys =
      some ({ sys with
                fs := fsWrite sys.fs (pathJoin root p)
                        (jsReplaceFirst (unescapeJsonString o)
                          (unescapeJsonString n) content),
                confirms := sys.confirms + 1,
                completed := sys.completed + 1 },
            [Event.applied "modify" p]) := by
  have hpa : propAccess (modifyAction p o n) "path" = some (some (Json.str p)) := rfl
  have hty : typeIs (modifyAction p o n) "modify" = true := rfl
  have hcr : typeIs (modifyAction p o n) "create" = false := rfl
  have ho := contentArg_of_str (modifyAction p o n) "oldContent" o rfl
  have hn := contentArg_of_str (modifyAction p o n) "newContent" n rfl
  simp [execOther, hpa, hty, hcr, hconf, hread, ho, hn]

/-- Claim C6: a round holding a create of `x` with content `a` followed
by a modify of `x` replacing `a` with `b`, both confirmed, leaves file
`x` containing `b`: the modify re-reads the file and so observes the
create of the same round. -/
theorem claim6_sequential_dependency (root x : String) (confirm : Nat → Bool)
    (sys : Sys)
    (h1 : confirm sys.confirms = true)
    (h2 : confirm (sys.confirms + 1) = true) :
    ∃ out,
      execRound root confirm [createAction x "a", modifyAction x "a" "b"] sys =
        some out ∧
      fsRead out.sys.fs (pathJoin root x) = some "b" := by
  have hc := execOther_create_confirmed root confirm x "a" sys h1
  rw [show unescapeJsonString "a" = "a" from rfl] at hc
  have hm := execOther_modify_applied root confirm x "a" "b"
    { sys with fs := fsWrite sys.fs (pathJoin root x) "a",
               confirms := sys.confirms + 1,
               completed := sys.completed + 1 }
    "a" (by exact h2) (by exact fsRead_fsWrite _ _ _)
  rw [show jsReplaceFirst (unescapeJsonString "a") (unescapeJsonString "b") "a" =
        "b" from rfl] at hm
  have hfv : [createAction x "a", modifyAction x "a" "b"].filter isViewAction = [] :=
    rfl
  have hfo : [createAction x "a", modifyAction x "a" "b"].filter
      (fun a => !isViewAction a) = [createAction x "a", modifyAction x "a" "b"] :=
    rfl
  refine ⟨⟨⟨fsWrite (fsWrite sys.fs (pathJoin root x) "a") (pathJoin root x) "b",
      sys.completed + 1 + 1, sys.confirms + 1 + 1⟩, [],
      [Event.applied "create" x, Event.applied "modify" x]⟩, ?_,
    fsRead_fsWrite _ _ _⟩
  rw [execRound, hfv, hfo]
  simp only [execViews]
  simp only [execOthers, hc, hm, Option.map]
  simp

/-- Witness for C6 at a concrete path and workspace root. -/
theorem claim6_witness :
    ∃ out,
      execRound "/ws" (fun _ => true)
          [createAction "x" "a", modifyAction "x" "a" "b"] ⟨[], 0, 0⟩ =
        some out ∧
      fsRead out.sys.fs (pathJoin "/ws" "x") = some "b" :=
  claim6_sequential_dependency "/ws" "x" (fun _ => true) ⟨[], 0, 0⟩
    (by decide) (by decide)

/-- A successful view step records a view event at the action's path. -/
theorem execView_event (root : String) (a : Json) (fs : FileSys)
    (vr vr2 : List (String × String)) (e : Event)
    (h : execView root a fs vr = some (vr2, e)) : e = Event.view (pathOf a) := by
  unfold execView at h
  split at h
  · rename_i p hp
    split at h
    · rename_i content hr
      injection h with h1
      injection h1 with h1 h2
      simp [pathOf, hp, h2.symm]
    · rename_i hr
      injection h with h1
      injection h1 with h1 h2
      simp [pathOf, hp, h2.symm]
  · exact absurd h (by simp)

/-- The view loop emits exactly one view event per view action, in
order. -/
theorem execViews_trace (root : String) : ∀ (as : List Json) (fs : FileSys)
    (vr vr' : List (String × String)) (tr : List Event),
    execViews root as fs vr = some (vr', tr) →
    tr = as.map (fun a => Event.view (pathOf a))
  | [], fs, vr, vr', tr, h => by
    simp [execViews] at h
    simp [h.2.symm]
  | a :: rest, fs, vr, vr', tr, h => by
    unfold execViews at h
    cases he : execView root a fs vr with
    | none => rw [he] at h; exact absurd h (by simp)
    | some pr =>
      obtain ⟨vr2, e⟩ := pr
      rw [he] at h
      dsimp only at h
      cases hr : execViews root rest fs vr2 with
      | none => rw [hr] at h; exact absurd h (by simp)
      | some pr2 =>
        obtain ⟨vr3, tl⟩ := pr2
        rw [hr] at h
        dsimp only [Option.map] at h
        injection h with h1
        injection h1 with h1 h2
        have hev := execView_event root a fs vr vr2 e he
        have htl := execViews_trace root rest fs vr2 vr3 tl hr
        simp [h2.symm, hev, htl]

/-- A kept element has a string type drawn from the closed set. -/
theorem wellFormed_type (a : Json) (hw : wellFormedAction a = true) :
    ∃ t, propAccess a "type" = some (some (Json.str t)) ∧
      validTypes.contains t = true := by
  unfold wellFormedAction actionCheck at hw
  cases hty : propAccess a "type" with
  | none => rw [hty] at hw; simp at hw
  | some ty =>
    rw [hty] at hw
    dsimp only at hw
    cases hpa : propAccess a "path" with
    | none => rw [hpa] at hw; simp at hw
    | some pa =>
      rw [hpa] at hw
      dsimp only at hw
      split at hw
      · simp at hw
      · simp only [Option.getD_some] at hw
        split at hw
        · rename_i t heq
          exact ⟨t, rfl, hw⟩
        · simp at hw

/-- A successful non-view step on a well-formed action emits exactly one
non-view event, at the action's path. -/
theorem execOther_event (root : String) (confirm : Nat → Bool) (a : Json)
    (sys sys2 : Sys) (evs : List Event)
    (h : execOther root confirm a sys = some (sys2, evs))
    (hv : isViewAction a = false)
    (hw : wellFormedAction a = true) :
    ∃ e, evs = [e] ∧ eventPath e = pathOf a ∧ isViewEvent e = false := by
  obtain ⟨t, hty, hmem⟩ := wellFormed_type a hw
  unfold execOther at h
  split at h
  · rename_i p hp
    have hpOf : pathOf a = p := by simp [pathOf, hp]
    have hdisp : typeIs a "create" = true ∨ typeIs a "modify" = true ∨
        typeIs a "delete" = true := by
      have hnv : ¬ t = "view" := by
        intro ht
        rw [isViewAction, typeIs, hty, ht] at hv
        simp at hv
      simp [validTypes, List.contains] at hmem
      rcases hmem with h1 | h1 | h1 | h1
      · exact absurd h1 hnv
      · exact Or.inl (by simp [typeIs, hty, h1])
      · exact Or.inr (Or.inl (by simp [typeIs, hty, h1]))
      · exact Or.inr (Or.inr (by simp [typeIs, hty, h1]))
    dsimp only at h
    by_cases hc : typeIs a "create" = true
    · simp only [hc, if_true] at h
      cases hok : confirm sys.confirms with
      | false =>
        simp only [hok, Bool.false_eq_true, if_false] at h
        injection h with h1
        injection h1 with h1 h2
        exact ⟨Event.skipped "create" p,
          by simp [h2.symm, eventPath, hpOf, isViewEvent]⟩
      | true =>
        simp only [hok, if_true] at h
        cases hca : contentArg a "content" with
        | none => rw [hca] at h; exact absurd h (by simp)
        | some content =>
          rw [hca] at h
          try dsimp only at h
          injection h with h1
          injection h1 with h1 h2
          exact ⟨Event.applied "create" p,
            by simp [h2.symm, eventPath, hpOf, isViewEvent]⟩
    · rw [Bool.not_eq_true] at hc
      simp only [hc, Bool.false_eq_true, if_false] at h
      by_cases hm : typeIs a "modify" = true
      · simp only [hm, if_true] at h
        cases hok : confirm sys.confirms with
        | false =>
          simp only [hok, Bool.false_eq_true, if_false] at h
          injection h with h1
          injection h1 with h1 h2
          exact ⟨Event.skipped "modify" p,
            by simp [h2.symm, eventPath, hpOf, isViewEvent]⟩
        | true =>
          simp only [hok, if_true] at h
          cases hrd : fsRead sys.fs (pathJoin root p) with
          | none =>
            rw [hrd] at h
            try dsimp only at h
            injection h with h1
            injection h1 with h1 h2
            exact ⟨Event.failed "modify" p,
              by simp [h2.symm, eventPath, hpOf, isViewEvent]⟩
          | some content =>
            rw [hrd] at h
            dsimp only at h
            cases hco : contentArg a "oldContent" with
            | none =>
              rw [hco] at h
              try dsimp only at h
              injection h with h1
              injection h1 with h1 h2
              exact ⟨Event.failed "modify" p,
                by simp [h2.symm, eventPath, hpOf, isViewEvent]⟩
            | some oldC =>
              rw [hco] at h
              try dsimp only at h
              cases hcn : contentArg a "newContent" with
              | none =>
                rw [hcn] at h
                try dsimp only at h
                injection h with h1
                injection h1 with h1 h2
                exact ⟨Event.failed "modify" p,
                  by simp [h2.symm, eventPath, hpOf, isViewEvent]⟩
              | some newC =>
                rw [hcn] at h
                try dsimp only at h
                injection h with h1
                injection h1 with h1 h2
                exact ⟨Event.applied "modify" p,
                  by simp [h2.symm, eventPath, hpOf, isViewEvent]⟩
      · rw [Bool.not_eq_true] at hm
        simp only [hm, Bool.false_eq_true, if_false] at h
        by_cases hd : typeIs a "delete" = true
        · simp only [hd, if_true] at h
          cases hok : confirm sys.confirms with
          | false =>
            simp only [hok, Bool.false_eq_true, if_false] at h
            injection h with h1
            injection h1 with h1 h2
            exact ⟨Event.skipped "delete" p,
              by simp [h2.symm, eventPath, hpOf, isViewEvent]⟩
          | true =>
            simp only [hok, if_true] at h
            cases hrd : fsRead sys.fs (pathJoin root p) with
            | none =>
              rw [hrd] at h
              try dsimp only at h
              injection h with h1
              injection h1 with h1 h2
              exact ⟨Event.failed "delete" p,
                by simp [h2.symm, eventPath, hpOf, isViewEvent]⟩
            | some content =>
              rw [hrd] at h
              try dsimp only at h
              injection h with h1
              injection h1 with h1 h2
              exact ⟨Event.applied "delete" p,
                by simp [h2.symm, eventPath, hpOf, isViewEvent]⟩
        · rw [Bool.not_eq_true] at hd
          rcases hdisp with h1 | h1 | h1
          · rw [hc] at h1; exact absurd h1 (by simp)
          · rw [hm] at h1; exact absurd h1 (by simp)
          · rw [hd] at h1; exact absurd h1 (by simp)
  · exact absurd h (by simp)

/-- The non-view loop emits exactly one non-view event per action, in
order. -/
theorem execOthers_trace (root : String) (confirm : Nat → Bool) :
    ∀ (as : List Json) (sys sys' : Sys) (tr : List Event),
    execOthers root confirm as sys = some (sys', tr) →
    (∀ a ∈ as, wellFormedAction a = true ∧ isViewAction a = false) →
    tr.map eventPath = as.map pathOf ∧ ∀ e ∈ tr, isViewEvent e = false
  | [], sys, sys', tr, h, _ => by
    simp [execOthers] at h
    simp [h.2]
  | a :: rest, sys, sys', tr, h, hw => by
    unfold execOthers at h
    cases he : execOther root confirm a sys with
    | none => rw [he] at h; exact absurd h (by simp)
    | some pr =>
      obtain ⟨sys2, evs⟩ := pr
      rw [he] at h
      dsimp only at h
      cases hr : execOthers root confirm rest sys2 with
      | none => rw [hr] at h; exact absurd h (by simp)
      | some pr2 =>
        obtain ⟨sys3, tl⟩ := pr2
        rw [hr] at h
        dsimp only [Option.map] at h
        injection h with h1
        injection h1 with h1 h2
        obtain ⟨e, he1, he2, he3⟩ := execOther_event root confirm a sys sys2 evs
          he (hw a (by simp)).2 (hw a (by simp)).1
        obtain ⟨ih1, ih2⟩ := execOthers_trace root confirm rest sys2 sys3 tl
          hr (fun b hb => hw b (by simp [hb]))
        constructor
        · simp [h2.symm, he1, he2, ih1]
        · intro ev hev
          rw [h2.symm] at hev
          simp [he1] at hev
          rcases hev with hev | hev
          · rw [hev]; exact he3
          · exact ih2 ev hev

/-- Claim C2 (amended): within every round, all View actions are
executed first, in the order the parser returned them (collecting
`viewResults`), and the non-view actions (Create, Modify, Delete) are
executed afterwards, also in parser order — the reverse of the claimed
order. -/
theorem claim2_views_execute_first (root : String) (confirm : Nat → Bool)
    (acts : List Json) (sys : Sys) (out : RoundOut)
    (h : execRound root confirm acts sys = some out)
    (hw : ∀ a ∈ acts, wellFormedAction a = true) :
    ∃ tr2,
      out.trace =
        (acts.filter isViewAction).map (fun a => Event.view (pathOf a)) ++ tr2 ∧
      (∀ e ∈ tr2, isViewEvent e = false) ∧
      tr2.map eventPath = (acts.filter (fun a => !isViewAction a)).map pathOf := by
  unfold execRound at h
  cases hv : execViews root (acts.filter isViewAction) sys.fs [] with
  | none => rw [hv] at h; exact absurd h (by simp)
  | some pv =>
    rw [hv] at h
    cases ho : execOthers root confirm (acts.filter (fun a => !isViewAction a)) sys with
    | none => rw [ho] at h; exact absurd h (by simp)
    | some po =>
      rw [ho] at h
      injection h with h1
      have htr1 := execViews_trace root (acts.filter isViewAction) sys.fs []
        pv.1 pv.2 (by rw [hv])
      obtain ⟨ho1, ho2⟩ := execOthers_trace root confirm
        (acts.filter (fun a => !isViewAction a)) sys po.1 po.2 (by rw [ho])
        (by
          intro b hb
          rw [List.mem_filter] at hb
          exact ⟨hw b hb.1, by simpa using hb.2⟩)
      refine ⟨po.2, ?_, ho2, ho1⟩
      rw [h1.symm]
      simp [htr1, List.map_map]

/-- Counterexample to C2 as stated: a round parsed as a create followed
by a view executes the view first, so the non-view action is not
executed before the view action. -/
theorem claim2_counterexample :
    execRound "/ws" (fun _ => true) [createAction "x" "a", viewAction "y"]
        ⟨[], 0, 0⟩ =
      some ⟨⟨[("/ws/x", "a")], 1, 1⟩, [("y", "Error: Cannot read file")],
        [Event.view "y", Event.applied "create" "x"]⟩ ∧
    nonViewsFirst [Event.view "y", Event.applied "create" "x"] = false :=
  ⟨by decide, by decide⟩

/-- Witness for the amended C2 at the same concrete round. -/
theorem claim2_witness :
    ∃ tr2,
      ([Event.view "y", Event.applied "create" "x"] : List Event) =
        ([createAction "x" "a", viewAction "y"].filter isViewAction).map
          (fun a => Event.view (pathOf a)) ++ tr2 ∧
      (∀ e ∈ tr2, isViewEvent e = false) ∧
      tr2.map eventPath =
        ([createAction "x" "a", viewAction "y"].filter
          (fun a => !isViewAction a)).map pathOf := by
  have h := claim2_views_execute_first "/ws" (fun _ => true)
    [createAction "x" "a", viewAction "y"] ⟨[], 0, 0⟩
    ⟨⟨[("/ws/x", "a")], 1, 1⟩, [("y", "Error: Cannot read file")],
      [Event.view "y", Event.applied "create" "x"]⟩
    (by decide) (by decide)
  simpa using h

/-- An action with a string path has a readable path field. -/
theorem strField_path (a : Json) (k : String) (h : strField a k = true) :
    ∃ p, propAccess a k = some (some (Json.str p)) := by
  unfold strField at h
  split at h
  · rename_i p heq
    exact ⟨p, heq⟩
  · simp at h

/-- A view step never fails on an action with a string path. -/
theorem execView_some (root : String) (a : Json) (fs : FileSys)
    (vr : List (String × String)) (h : strField a "path" = true) :
    ∃ vr2 e, execView root a fs vr = some (vr2, e) := by
  obtain ⟨p, hp⟩ := strField_path a "path" h
  unfold execView
  rw [hp]
  cases hr : fsRead fs (pathJoin root p) <;> simp [hr]

/-- The view loop never fails when every action has a string path. -/
theorem execViews_some (root : String) : ∀ (as : List Json) (fs : FileSys)
    (vr : List (String × String)),
    (∀ a ∈ as, strField a "path" = true) →
    ∃ vr' tr, execViews root as fs vr = some (vr', tr)
  | [], _, vr, _ => ⟨vr, [], rfl⟩
  | a :: rest, fs, vr, h => by
    obtain ⟨vr2, e, he⟩ := execView_some root a fs vr (h a (by simp))
    obtain ⟨vr', tr, hrest⟩ :=
      execViews_some root rest fs vr2 (fun b hb => h b (by simp [hb]))
    refine ⟨vr', e :: tr, ?_⟩
    rw [execViews, he]
    dsimp only
    rw [hrest]
    rfl

/-- A non-view step never aborts on a safe action. -/
theorem execOther_some (root : String) (confirm : Nat → Bool) (a : Json)
    (sys : Sys) (h : actionSafe a = true) :
    ∃ sys2 evs, execOther root confirm a sys = some (sys2, evs) := by
  unfold actionSafe at h
  rw [Bool.and_eq_true] at h
  obtain ⟨p, hp⟩ := strField_path a "path" h.1
  unfold execOther
  rw [hp]
  dsimp only
  by_cases hc : typeIs a "create" = true
  · simp only [hc, if_true]
    cases hok : confirm sys.confirms with
    | false => simp
    | true =>
      simp only [if_true]
      have hca : ∃ c, contentArg a "content" = some c := by
        rw [hc] at h
        simp only [Bool.not_true, Bool.false_or] at h
        unfold contentArg
        split at h
        · simp at h
        · rename_i v hv
          by_cases htr : truthy v = true
          · rw [htr] at h
            simp only [Bool.not_true, Bool.false_or] at h
            split at h
            · rename_i x s
              exact ⟨unescapeJsonString s, by simp [htr]⟩
            · simp at h
          · rw [Bool.not_eq_true] at htr
            exact ⟨"", by simp [htr]⟩
      obtain ⟨c, hca⟩ := hca
      rw [hca]
      simp
  · rw [Bool.not_eq_true] at hc
    simp only [hc, Bool.false_eq_true, if_false]
    by_cases hm : typeIs a "modify" = true
    · simp only [hm, if_true]
      cases hok : confirm sys.confirms with
      | false => simp
      | true =>
        simp only [if_true]
        cases hrd : fsRead sys.fs (pathJoin root p) with
        | none => simp
        | some content =>
          dsimp only
          cases hco : contentArg a "oldContent" with
          | none => simp
          | some oldC =>
            cases hcn : contentArg a "newContent" with
            | none => simp
            | some newC => simp
    · rw [Bool.not_eq_true] at hm
      simp only [hm, Bool.false_eq_true, if_false]
      by_cases hd : typeIs a "delete" = true
      · simp only [hd, if_true]
        cases hok : confirm sys.confirms with
        | false => simp
        | true =>
          simp only [if_true]
          cases hrd : fsRead sys.fs (pathJoin root p) with
          | none => simp
          | some content => simp
      · rw [Bool.not_eq_true] at hd
        simp only [hd, Bool.false_eq_true, if_false]
        simp

/-- The non-view loop never aborts on safe actions. -/
theorem execOthers_some (root : String) (confirm : Nat → Bool) :
    ∀ (as : List Json) (sys : Sys),
    (∀ a ∈ as, actionSafe a = true) →
    ∃ sys' tr, execOthers root confirm as sys = some (sys', tr)
  | [], sys, _ => ⟨sys, [], rfl⟩
  | a :: rest, sys, h => by
    obtain ⟨sys2, evs, he⟩ := execOther_some root confirm a sys (h a (by simp))
    obtain ⟨sys', tr, hrest⟩ :=
      execOthers_some root confirm rest sys2 (fun b hb => h b (by simp [hb]))
    refine ⟨sys', evs ++ tr, ?_⟩
    rw [execOthers, he]
    dsimp only
    rw [hrest]
    rfl

/-- A safe round never aborts. -/
theorem execRound_some (root : String) (confirm : Nat → Bool) (acts : List Json)
    (sys : Sys) (h : roundSafe acts = true) :
    ∃ out, execRound root confirm acts sys = some out := by
  have hall : ∀ a ∈ acts, actionSafe a = true := by
    intro a ha
    exact List.all_eq_true.mp h a ha
  obtain ⟨vr, tr1, hv⟩ := execViews_some root (acts.filter isViewAction) sys.fs []
    (fun a ha =>
      ((Bool.and_eq_true _ _).mp (hall a (List.mem_filter.mp ha).1)).1)
  obtain ⟨sys2, tr2, ho⟩ := execOthers_some root confirm
    (acts.filter (fun a => !isViewAction a)) sys
    (fun a ha => hall a (List.mem_filter.mp ha).1)
  refine ⟨⟨sys2, vr, tr1 ++ tr2⟩, ?_⟩
  rw [execRound, hv]
  dsimp only
  rw [ho]

/-- An upsert never produces the empty map. -/
theorem upsert_ne_nil (m : List (String × String)) (k v : String) :
    upsert m k v ≠ [] := by
  cases m with
  | nil => simp [upsert]
  | cons e rest =>
    by_cases he : e.1 = k <;> simp [upsert, he]

/-- A successful view loop over at least one action, or starting from a
nonempty map, ends with a nonempty map. -/
theorem execViews_ne_nil (root : String) : ∀ (as : List Json) (fs : FileSys)
    (vr vr' : List (String × String)) (tr : List Event),
    execViews root as fs vr = some (vr', tr) →
    (vr ≠ [] ∨ as ≠ []) → vr' ≠ []
  | [], fs, vr, vr', tr, h, hne => by
    simp [execViews] at h
    rcases hne with hne | hne
    · rw [h.1.symm]; exact hne
    · exact absurd rfl hne
  | a :: rest, fs, vr, vr', tr, h, _ => by
    unfold execViews at h
    cases he : execView root a fs vr with
    | none => rw [he] at h; exact absurd h (by simp)
    | some pr =>
      obtain ⟨vr2, e⟩ := pr
      rw [he] at h
      dsimp only at h
      cases hr : execViews root rest fs vr2 with
      | none => rw [hr] at h; exact absurd h (by simp)
      | some pr2 =>
        obtain ⟨vr3, tl⟩ := pr2
        rw [hr] at h
        dsimp only [Option.map] at h
        injection h with h1
        injection h1 with h1 h2
        have hvr2 : vr2 ≠ [] := by
          unfold execView at he
          split at he
          · split at he <;>
              (injection he with he1; injection he1 with he1 he2;
                rw [he1.symm]; exact upsert_ne_nil _ _ _)
          · exact absurd he (by simp)
        rw [h1.symm]
        exact execViews_ne_nil root rest fs vr2 vr3 tl hr (Or.inl hvr2)

/-- A round containing a view action produces nonempty `viewResults`. -/
theorem execRound_viewResults_ne_nil (root : String) (confirm : Nat → Bool)
    (acts : List Json) (sys : Sys) (out : RoundOut)
    (h : execRound root confirm acts sys = some out)
    (hview : acts.any isViewAction = true) : out.viewResults ≠ [] := by
  unfold execRound at h
  cases hv : execViews root (acts.filter isViewAction) sys.fs [] with
  | none => rw [hv] at h; exact absurd h (by simp)
  | some pv =>
    obtain ⟨vr, tr1⟩ := pv
    rw [hv] at h
    dsimp only at h
    cases ho : execOthers root confirm (acts.filter (fun a => !isViewAction a)) sys with
    | none => rw [ho] at h; exact absurd h (by simp)
    | some po =>
      obtain ⟨sys2, tr2⟩ := po
      rw [ho] at h
      dsimp only at h
      injection h with h1
      have hfne : acts.filter isViewAction ≠ [] := by
        obtain ⟨a, ha, hva⟩ := List.any_eq_true.mp hview
        intro hemp
        have : a ∈ acts.filter isViewAction := List.mem_filter.mpr ⟨ha, hva⟩
        rw [hemp] at this
        exact List.not_mem_nil a this
      have hvr : vr ≠ [] :=
        execViews_ne_nil root (acts.filter isViewAction) sys.fs [] vr tr1 hv
          (Or.inr hfne)
      rw [h1.symm]
      exact hvr

/-- The loop body, when every round parses to a nonempty, safe action
list containing a view action, runs down its whole fuel, making one
transport call per unit of fuel, and never aborts. -/
theorem runLoopAux_exhausts (respond : Nat → String) (confirm : Nat → Bool)
    (root : String)
    (H : ∀ n, parseWorkspaceActions (respond n) ≠ [] ∧
      (parseWorkspaceActions (respond n)).any isViewAction = true ∧
      roundSafe (parseWorkspaceActions (respond n)) = true) :
    ∀ (fuel : Nat) (sys : Sys) (calls : Nat),
      (runLoopAux respond confirm root fuel sys calls).calls = calls + fuel ∧
      (runLoopAux respond confirm root fuel sys calls).aborted = false
  | 0, sys, calls => by simp [runLoopAux]
  | fuel + 1, sys, calls => by
    obtain ⟨hne, hview, hsafe⟩ := H calls
    have hie : (parseWorkspaceActions (respond calls)).isEmpty = false := by
      cases hpw : parseWorkspaceActions (respond calls) with
      | nil => exact absurd hpw hne
      | cons x xs => simp [List.isEmpty]
    obtain ⟨out, hout⟩ := execRound_some root confirm
      (parseWorkspaceActions (respond calls)) sys hsafe
    have hvr : out.viewResults.isEmpty = false := by
      have := execRound_viewResults_ne_nil root confirm
        (parseWorkspaceActions (respond calls)) sys out hout hview
      cases hv : out.viewResults with
      | nil => exact absurd hv this
      | cons x xs => simp [List.isEmpty]
    rw [runLoopAux]
    simp only [hie, Bool.false_eq_true, if_false, hout, hvr]
    have ih := runLoopAux_exhausts respond confirm root H fuel out.sys (calls + 1)
    refine ⟨?_, ih.2⟩
    rw [ih.1]
    omega

/-- Claim C3: if every round parses at least one view action (with no
aborting action), the agent loop makes exactly `maxRounds` transport
calls and then terminates; never `maxRounds + 1`. -/
theorem claim3_exhaustion_exactly_maxRounds (respond : Nat → String)
    (confirm : Nat → Bool) (root : String) (maxRounds : Nat)
    (hmax : 1 ≤ maxRounds)
    (H : ∀ n, parseWorkspaceActions (respond n) ≠ [] ∧
      (parseWorkspaceActions (respond n)).any isViewAction = true ∧
      roundSafe (parseWorkspaceActions (respond n)) = true) :
    (runSession respond confirm root maxRounds).calls = maxRounds ∧
    (runSession respond confirm root maxRounds).aborted = false := by
  have h := runLoopAux_exhausts respond confirm root H maxRounds ⟨[], 0, 0⟩ 0
  rw [runSession]
  refine ⟨?_, h.2⟩
  rw [h.1]
  omega

/-- Witness for C3: a transport that always answers with one view
action, a budget of two rounds, exactly two calls. -/
theorem claim3_witness :
    (runSession (fun _ => "[\x7b\"type\":\"view\",\"path\":\"a.txt\"\x7d]")
      (fun _ => true) "/ws" 2).calls = 2 ∧
    (runSession (fun _ => "[\x7b\"type\":\"view\",\"path\":\"a.txt\"\x7d]")
      (fun _ => true) "/ws" 2).aborted = false := by
  refine claim3_exhaustion_exactly_maxRounds _ _ "/ws" 2 (by omega) ?_
  intro n
  refine ⟨?_, by decide, by decide⟩
  intro h
  rw [show parseWorkspaceActions "[\x7b\"type\":\"view\",\"path\":\"a.txt\"\x7d]" =
    [Json.obj [("type", Json.str "view"), ("path", Json.str "a.txt")]] from rfl] at h
  exact List.noConfusion h

/-- Claim C4: a round whose parsed actions are nonempty but contain no
view action is the last round: the loop makes that round's single
transport call, executes its actions, and stops with no further call,
whatever fuel remains. -/
theorem claim4_termination_by_silence (respond : Nat → String)
    (confirm : Nat → Bool) (root : String) (fuel : Nat) (sys : Sys)
    (calls : Nat) (out : RoundOut)
    (hne : parseWorkspaceActions (respond calls) ≠ [])
    (hnoview : (parseWorkspaceActions (respond calls)).any isViewAction = false)
    (hexec : execRound root confirm (parseWorkspaceActions (respond calls)) sys =
      some out) :
    runLoopAux respond confirm root (fuel + 1) sys calls =
      ⟨out.sys, calls + 1, false⟩ := by
  have hie : (parseWorkspaceActions (respond calls)).isEmpty = false := by
    cases hpw : parseWorkspaceActions (respond calls) with
    | nil => exact absurd hpw hne
    | cons x xs => simp [List.isEmpty]
  have hvr : out.viewResults = [] := by
    have hfe : (parseWorkspaceActions (respond calls)).filter isViewAction = [] := by
      rw [List.filter_eq_nil_iff]
      intro a ha hva
      have : (parseWorkspaceActions (respond calls)).any isViewAction = true :=
        List.any_eq_true.mpr ⟨a, ha, hva⟩
      rw [hnoview] at this
      exact Bool.noConfusion this
    unfold execRound at hexec
    rw [hfe] at hexec
    simp only [execViews] at hexec
    cases ho : execOthers root confirm
        ((parseWorkspaceActions (respond calls)).filter (fun a => !isViewAction a))
        sys with
    | none => rw [ho] at hexec; exact absurd hexec (by simp)
    | some po =>
      obtain ⟨sys2, tr2⟩ := po
      rw [ho] at hexec
      dsimp only at hexec
      injection hexec with h1
      rw [h1.symm]
  have hvre : out.viewResults.isEmpty = true := by rw [hvr]; rfl
  rw [runLoopAux]
  simp only [hie, Bool.false_eq_true, if_false, hexec, hvre, if_true]

/-- Witness for C4: a transport whose first answer is a single create
action; the loop stops after one call with four units of fuel left. -/
theorem claim4_witness :
    runLoopAux (fun _ => "[\x7b\"type\":\"create\",\"path\":\"a.txt\",\"content\":\"hi\"\x7d]")
        (fun _ => true) "/ws" (4 + 1) ⟨[], 0, 0⟩ 0 =
      ⟨⟨[("/ws/a.txt", "hi")], 1, 1⟩, 1, false⟩ := by
  have h := claim4_termination_by_silence
    (fun _ => "[\x7b\"type\":\"create\",\"path\":\"a.txt\",\"content\":\"hi\"\x7d]")
    (fun _ => true) "/ws" 4 ⟨[], 0, 0⟩ 0
    ⟨⟨[("/ws/a.txt", "hi")], 1, 1⟩, [], [Event.applied "create" "a.txt"]⟩
    (by
      intro hh
      rw [show parseWorkspaceActions
        "[\x7b\"type\":\"create\",\"path\":\"a.txt\",\"content\":\"hi\"\x7d]" =
        [Json.obj [("type", Json.str "create"), ("path", Json.str "a.txt"),
          ("content", Json.str "hi")]] from rfl] at hh
      exact List.noConfusion hh)
    (by decide) (by decide)
  exact h

theorem replaceAllF_nil (pat rep : List Char) (fuel : Nat) :
    replaceAllF pat rep fuel [] = [] := by
  cases fuel <;> rfl

theorem replaceAllF_cons_some (pat rep : List Char) (fuel : Nat) (c : Char)
    (rest r : List Char) (h : stripPre pat (c :: rest) = some r) :
    replaceAllF pat rep (fuel + 1) (c :: rest) = rep ++ replaceAllF pat rep fuel r := by
  have he : replaceAllF pat rep (fuel + 1) (c :: rest) =
      match stripPre pat (c :: rest) with
      | some r2 => rep ++ replaceAllF pat rep fuel r2
      | none => c :: replaceAllF pat rep fuel rest := rfl
  rw [he, h]

theorem replaceAllF_cons_none (pat rep : List Char) (fuel : Nat) (c : Char)
    (rest : List Char) (h : stripPre pat (c :: rest) = none) :
    replaceAllF pat rep (fuel + 1) (c :: rest) = c :: replaceAllF pat rep fuel rest := by
  have he : replaceAllF pat rep (fuel + 1) (c :: rest) =
      match stripPre pat (c :: rest) with
      | some r2 => rep ++ replaceAllF pat rep fuel r2
      | none => c :: replaceAllF pat rep fuel rest := rfl
  rw [he, h]

/-- A pattern whose first character never occurs in the input matches
nowhere, regardless of fuel. -/
theorem replaceAllF_no_first (p : Char) (ps rep : List Char) :
    ∀ (fuel : Nat) (s : List Char), (∀ c ∈ s, c ≠ p) →
      replaceAllF (p :: ps) rep fuel s = s
  | fuel, [], _ => replaceAllF_nil (p :: ps) rep fuel
  | 0, _ :: _, _ => rfl
  | fuel + 1, c :: rest, h => by
    have hc : p ≠ c := Ne.symm (h c (by simp))
    rw [replaceAllF_cons_none _ _ _ _ _ (by simp [stripPre, hc])]
    rw [replaceAllF_no_first p ps rep fuel rest (fun b hb => h b (by simp [hb]))]

theorem concatMap_append (f : Char → List Char) (a b : List Char) :
    concatMap f (a ++ b) = concatMap f a ++ concatMap f b := by
  induction a with
  | nil => rfl
  | cons c rest ih => simp [concatMap, ih]

theorem concatMap_id (f : Char → List Char) :
    ∀ (s : List Char), (∀ c ∈ s, f c = [c]) → concatMap f s = s
  | [], _ => rfl
  | c :: rest, h => by
    rw [concatMap, h c (by simp),
      concatMap_id f rest (fun b hb => h b (by simp [hb]))]
    rfl

/-- A single-character global replace is a per-character map. -/
theorem replaceAllF_single (p : Char) (rep : List Char) :
    ∀ (fuel : Nat) (s : List Char), s.length ≤ fuel →
      replaceAllF [p] rep fuel s =
        concatMap (fun c => if c = p then rep else [c]) s
  | fuel, [], _ => replaceAllF_nil [p] rep fuel
  | 0, c :: rest, h => by simp at h
  | fuel + 1, c :: rest, h => by
    have hlen : rest.length ≤ fuel := Nat.le_of_succ_le_succ (by simpa using h)
    by_cases hpc : p = c
    · subst hpc
      rw [replaceAllF_cons_some _ _ _ _ _ rest (by simp [stripPre])]
      rw [replaceAllF_single p rep fuel rest hlen]
      simp [concatMap]
    · rw [replaceAllF_cons_none _ _ _ _ _ (by simp [stripPre, hpc])]
      rw [replaceAllF_single p rep fuel rest hlen]
      simp [concatMap, Ne.symm hpc]

theorem replaceAll_single (p : Char) (rep s : List Char) :
    replaceAll [p] rep s = concatMap (fun c => if c = p then rep else [c]) s := by
  simp only [replaceAll]
  exact replaceAllF_single p rep s.length s (Nat.le_refl _)

/-- The escaping pipeline distributes over concatenation. -/
theorem escapeL_append (a b : List Char) :
    escapeL (a ++ b) = escapeL a ++ escapeL b := by
  simp only [escapeL, replaceAll_single, concatMap_append]

/-- The escaping pipeline is the per-character encoding `encFull`. -/
theorem escapeL_eq : ∀ (s : List Char), escapeL s = concatMap encFull s
  | [] => rfl
  | c :: rest => by
    rw [show (c :: rest) = [c] ++ rest from rfl, escapeL_append, escapeL_eq rest,
      concatMap_append]
    congr 1
    by_cases h1 : c = bsl
    · subst h1; rfl
    · by_cases h2 : c = quot
      · subst h2; rfl
      · by_cases h3 : c = lf
        · subst h3; rfl
        · by_cases h4 : c = cr
          · subst h4; rfl
          · by_cases h5 : c = tabc
            · subst h5; rfl
            · simp [escapeL, replaceAll_single, concatMap, encFull,
                h1, h2, h3, h4, h5]

/-- One unescaping pass over a pair-encoded string: a pass looking for
backslash-`q` decodes exactly the characters encoded as that pair,
leaves lone non-backslash characters alone, and steps over the other
backslash pairs. -/
theorem decode_pass (q r : Char) (f g : Char → List Char) :
    ∀ (s : List Char),
      (∀ c ∈ s, (f c = [c] ∧ c ≠ bsl ∧ g c = [c]) ∨
        (f c = [bsl, q] ∧ g c = [r]) ∨
        (∃ d, d ≠ bsl ∧ d ≠ q ∧ f c = [bsl, d] ∧ g c = [bsl, d])) →
      ∀ (fuel : Nat), (concatMap f s).length ≤ fuel →
      replaceAllF [bsl, q] [r] fuel (concatMap f s) = concatMap g s
  | [], _, fuel, _ => replaceAllF_nil [bsl, q] [r] fuel
  | c :: rest, hfg, fuel, hlen => by
    have hrest : ∀ b ∈ rest, (f b = [b] ∧ b ≠ bsl ∧ g b = [b]) ∨
        (f b = [bsl, q] ∧ g b = [r]) ∨
        (∃ d, d ≠ bsl ∧ d ≠ q ∧ f b = [bsl, d] ∧ g b = [bsl, d]) :=
      fun b hb => hfg b (by simp [hb])
    rcases hfg c (by simp) with ⟨hf, hcb, hg⟩ | ⟨hf, hg⟩ | ⟨d, hdb, hdq, hf, hg⟩
    · have hlen2 : (concatMap f rest).length + 1 ≤ fuel := by
        rw [concatMap, hf] at hlen
        simpa using hlen
      obtain ⟨f1, rfl⟩ : ∃ f1, fuel = f1 + 1 := ⟨fuel - 1, by omega⟩
      rw [concatMap, concatMap, hf, hg, List.singleton_append,
        List.singleton_append]
      rw [replaceAllF_cons_none _ _ _ _ _
        (by simp [stripPre, Ne.symm hcb])]
      rw [decode_pass q r f g rest hrest f1 (by omega)]
    · have hlen2 : (concatMap f rest).length + 2 ≤ fuel := by
        rw [concatMap, hf] at hlen
        simpa using hlen
      obtain ⟨f1, rfl⟩ : ∃ f1, fuel = f1 + 1 := ⟨fuel - 1, by omega⟩
      rw [concatMap, concatMap, hf, hg,
        show ([bsl, q] ++ concatMap f rest) = bsl :: q :: concatMap f rest from rfl]
      rw [replaceAllF_cons_some _ _ _ _ _ (concatMap f rest)
        (by simp [stripPre])]
      rw [decode_pass q r f g rest hrest f1 (by omega)]
    · have hlen2 : (concatMap f rest).length + 2 ≤ fuel := by
        rw [concatMap, hf] at hlen
        simpa using hlen
      obtain ⟨f1, rfl⟩ : ∃ f1, fuel = f1 + 2 := ⟨fuel - 2, by omega⟩
      rw [concatMap, concatMap, hf, hg,
        show ([bsl, d] ++ concatMap f rest) = bsl :: d :: concatMap f rest from rfl]
      rw [show f1 + 2 = (f1 + 1) + 1 from rfl]
      rw [replaceAllF_cons_none _ _ _ _ _
        (by simp [stripPre, Ne.symm hdq])]
      rw [replaceAllF_cons_none _ _ _ _ _
        (by simp [stripPre, Ne.symm hdb])]
      rw [decode_pass q r f g rest hrest f1 (by omega)]
      rfl

theorem replaceAll_pair (p q : Char) (rep s : List Char) :
    replaceAll [p, q] rep s = replaceAllF [p, q] rep s.length s := by
  simp only [replaceAll]

theorem unescape_pass1 (s : List Char) (h : ∀ c ∈ s, c ≠ bsl) :
    replaceAll [bsl, nChr] [lf] (concatMap encFull s) = concatMap enc1 s := by
  rw [replaceAll_pair]
  refine decode_pass nChr lf encFull enc1 s ?_ _ (Nat.le_refl _)
  intro c hc
  have hcb := h c hc
  by_cases h2 : c = quot
  · subst h2; exact Or.inr (Or.inr ⟨quot, by decide, by decide, rfl, rfl⟩)
  · by_cases h3 : c = lf
    · subst h3; exact Or.inr (Or.inl ⟨rfl, rfl⟩)
    · by_cases h4 : c = cr
      · subst h4; exact Or.inr (Or.inr ⟨rChr, by decide, by decide, rfl, rfl⟩)
      · by_cases h5 : c = tabc
        · subst h5; exact Or.inr (Or.inr ⟨tChr, by decide, by decide, rfl, rfl⟩)
        · exact Or.inl ⟨by simp [encFull, hcb, h2, h3, h4, h5], hcb,
            by simp [enc1, hcb, h2, h4, h5]⟩

theorem unescape_pass2 (s : List Char) (h : ∀ c ∈ s, c ≠ bsl) :
    replaceAll [bsl, rChr] [cr] (concatMap enc1 s) = concatMap enc2 s := by
  rw [replaceAll_pair]
  refine decode_pass rChr cr enc1 enc2 s ?_ _ (Nat.le_refl _)
  intro c hc
  have hcb := h c hc
  by_cases h2 : c = quot
  · subst h2; exact Or.inr (Or.inr ⟨quot, by decide, by decide, rfl, rfl⟩)
  · by_cases h4 : c = cr
    · subst h4; exact Or.inr (Or.inl ⟨rfl, rfl⟩)
    · by_cases h5 : c = tabc
      · subst h5; exact Or.inr (Or.inr ⟨tChr, by decide, by decide, rfl, rfl⟩)
      · exact Or.inl ⟨by simp [enc1, hcb, h2, h4, h5], hcb,
          by simp [enc2, hcb, h2, h5]⟩

theorem unescape_pass3 (s : List Char) (h : ∀ c ∈ s, c ≠ bsl) :
    replaceAll [bsl, tChr] [tabc] (concatMap enc2 s) = concatMap enc3 s := by
  rw [replaceAll_pair]
  refine decode_pass tChr tabc enc2 enc3 s ?_ _ (Nat.le_refl _)
  intro c hc
  have hcb := h c hc
  by_cases h2 : c = quot
  · subst h2; exact Or.inr (Or.inr ⟨quot, by decide, by decide, rfl, rfl⟩)
  · by_cases h5 : c = tabc
    · subst h5; exact Or.inr (Or.inl ⟨rfl, rfl⟩)
    · exact Or.inl ⟨by simp [enc2, hcb, h2, h5], hcb,
        by simp [enc3, hcb, h2]⟩

theorem unescape_pass4 (s : List Char) (h : ∀ c ∈ s, c ≠ bsl) :
    replaceAll [bsl, quot] [quot] (concatMap enc3 s) = concatMap enc4 s := by
  rw [replaceAll_pair]
  refine decode_pass quot quot enc3 enc4 s ?_ _ (Nat.le_refl _)
  intro c hc
  have hcb := h c hc
  by_cases h2 : c = quot
  · subst h2; exact Or.inr (Or.inl ⟨rfl, rfl⟩)
  · exact Or.inl ⟨by simp [enc3, hcb, h2], hcb, by simp [enc4, hcb]⟩

/-- Unescaping inverts escaping on backslash-free inputs. -/
theorem unescapeL_escapeL (s : List Char) (h : ∀ c ∈ s, c ≠ bsl) :
    unescapeL (escapeL s) = s := by
  rw [escapeL_eq]
  unfold unescapeL
  rw [unescape_pass1 s h, unescape_pass2 s h, unescape_pass3 s h,
    unescape_pass4 s h]
  rw [concatMap_id enc4 s (fun c hc => by simp [enc4, h c hc])]
  rw [replaceAll]
  exact replaceAllF_no_first bsl [bsl] [bsl] s.length s h

/-- Claim C10 (amended): for every string containing no backslash,
`unescapeJsonString (escapeJsonString s) = s`, so content free of
backslashes round-trips through the action text transport unchanged. -/
theorem claim10_roundtrip (s : String) (h : ∀ c ∈ s.data, c ≠ bsl) :
    unescapeJsonString (escapeJsonString s) = s := by
  cases s with
  | mk data =>
    show String.mk (unescapeL (escapeL data)) = String.mk data
    rw [unescapeL_escapeL data h]

/-- Witness for the amended C10 on a concrete string containing a
quote, a newline and a tab. -/
theorem claim10_witness :
    unescapeJsonString (escapeJsonString "a\"b\nc\td") = "a\"b\nc\td" := by
  apply claim10_roundtrip
  decide

/-- Counterexample to C10 as stated: on the two-character string
backslash-`n`, escaping gives backslash-backslash-`n`, and unescaping
that (the backslash-n pass runs before the backslash-backslash pass)
gives backslash-newline, not the original string. -/
theorem claim10_counterexample :
    unescapeJsonString (escapeJsonString "\\n") = "\\\n" ∧
    ("\\\n" : String) ≠ "\\n" :=
  ⟨by decide, by decide⟩

end Askii
